import Mathlib

/-!
Verification of the blawktrust columnar compute engine core.

The definitions below are a shallow embedding of the Rust sources:
orientations and the D4 composition table (`src/table/orientation.rs`,
`src/table/d4_compose.rs`), the validity-bitmap kernels
(`src/builtins/kernels_masked.rs`, `kernels_fused.rs`, `kernels_wordwise.rs`),
the rolling-moments kernel (`src/builtins/rolling_moments.rs`), the scratch
allocator (`src/builtins/scratch.rs`) and the pipeline executor
(`src/pipeline/executor.rs`, `colwise_fused.rs`, `execution_plan.rs`).

`f64` values are modelled as `Option ℚ` (`none` = NaN); `f64::ln` is an
arbitrary parameter `lnf : ℚ → Option ℚ` since every claim treated here is
independent of the actual logarithm values. Vectors are Lean lists; a
validity `Bitmap` is its list of bits (the unused tail bits of the last
64-bit word are zero by the documented invariant, so they do not appear).
-/

set_option maxHeartbeats 1000000

namespace Blawktrust

/-! ### Orientations (src/table/orientation.rs) -/

/-- `Ori` from orientation.rs: 8 D4 symmetries + Each (X) + Real (R). -/
inductive Ori where
  | D4 (swap flip_i flip_j : Bool)
  | Each
  | Real
deriving DecidableEq

/-- `Ori::map_ij`: map logical (i,j) to physical (row,col).
If `swap`, transpose first; then apply flips (`ii = nr-1-ii`, `jj = nc-1-jj`).
For Each/Real the mapping is the identity. -/
def Ori.map_ij : Ori → Nat → Nat → Nat → Nat → Nat × Nat
  | Ori.D4 s fi fj, nr, nc, i, j =>
    let ii0 := if s then j else i
    let jj0 := if s then i else j
    let ii := if fi then nr - 1 - ii0 else ii0
    let jj := if fj then nc - 1 - jj0 else jj0
    (ii, jj)
  | Ori.Each, _, _, i, j => (i, j)
  | Ori.Real, _, _, i, j => (i, j)

/-- `Ori::logical_shape`: transposed dimensions when swapped. -/
def Ori.logical_shape : Ori → Nat → Nat → Nat × Nat
  | Ori.D4 true _ _, nr, nc => (nc, nr)
  | Ori.D4 false _ _, nr, nc => (nr, nc)
  | Ori.Each, nr, nc => (nr, nc)
  | Ori.Real, nr, nc => (nr, nc)

/-! ### D4 composition table (src/table/d4_compose.rs) -/

/-- `d4_to_id`: encode a D4 orientation as `(swap<<2)|(flip_i<<1)|flip_j`;
`None` for Each/Real. -/
def d4_to_id : Ori → Option Nat
  | Ori.D4 s fi fj =>
    some ((if s then 4 else 0) + (if fi then 2 else 0) + (if fj then 1 else 0))
  | Ori.Each => none
  | Ori.Real => none

/-- `id_to_d4`: decode bits of an id `0..7`. -/
def id_to_d4 (id : Nat) : Ori :=
  Ori.D4 ((id &&& 4) != 0) ((id &&& 2) != 0) ((id &&& 1) != 0)

/-- The constant `D4_COMP` table from d4_compose.rs, row-indexed by `id_a`,
column-indexed by `id_b`. -/
def D4_COMP : List (List Nat) :=
  [[0, 1, 2, 3, 4, 5, 6, 7],
   [1, 0, 3, 2, 5, 4, 7, 6],
   [2, 3, 0, 1, 6, 7, 4, 5],
   [3, 2, 1, 0, 7, 6, 5, 4],
   [4, 6, 5, 7, 0, 2, 1, 3],
   [5, 7, 4, 6, 1, 3, 0, 2],
   [6, 4, 7, 5, 2, 0, 3, 1],
   [7, 5, 6, 4, 3, 1, 2, 0]]

/-- `compose(a, b)`: table lookup on the ids; `None` if either argument is
not a D4 element. -/
def compose (a b : Ori) : Option Ori :=
  match d4_to_id a, d4_to_id b with
  | some ia, some ib => some (id_to_d4 ((D4_COMP.getD ia []).getD ib 0))
  | _, _ => none

/-- Identity orientation `H`. -/
def ORI_H : Ori := Ori.D4 false false false

/-- Transpose orientation `Z`. -/
def ORI_Z : Ori := Ori.D4 true false false

lemma id_to_d4_zero : id_to_d4 0 = Ori.D4 false false false := by decide

lemma id_to_d4_one : id_to_d4 1 = Ori.D4 false false true := by decide

lemma id_to_d4_two : id_to_d4 2 = Ori.D4 false true false := by decide

lemma id_to_d4_three : id_to_d4 3 = Ori.D4 false true true := by decide

lemma id_to_d4_four : id_to_d4 4 = Ori.D4 true false false := by decide

lemma id_to_d4_five : id_to_d4 5 = Ori.D4 true false true := by decide

lemma id_to_d4_six : id_to_d4 6 = Ori.D4 true true false := by decide

lemma id_to_d4_seven : id_to_d4 7 = Ori.D4 true true true := by decide

/-- C1 counterexample: with `a = Z` (swap) and `b` = flip_j on a 2×2 grid at
logical (0,1), mapping through `a.map_ij` and then `b.map_ij` gives (1,1),
but `compose(a, b).map_ij` gives (0,0): the claimed apply-a-then-b reading of
`compose` is false. -/
theorem compose_not_apply_a_then_b :
    (compose (Ori.D4 true false false) (Ori.D4 false false true)).map
        (fun c => Ori.map_ij c 2 2 0 1)
      ≠ some ((Ori.D4 false false true).map_ij 2 2
          ((Ori.D4 true false false).map_ij 2 2 0 1).1
          ((Ori.D4 true false false).map_ij 2 2 0 1).2) := by
  decide

/-- C1 (amended): on square grids (`nr = nc = n`) with in-range indices,
`compose(a, b)` is the D4 element whose `map_ij` equals mapping first through
`b.map_ij` and then through `a.map_ij` — i.e. the table composes in the
opposite order from the claim (applying `a` then `b` is `compose(b, a)`), and
only square grids make the two-step mapping agree with a single D4 map. -/
theorem compose_map_ij_square (sa fa ja sb fb jb : Bool) (n i j : Nat)
    (hi : i < n) (hj : j < n) :
    (compose (Ori.D4 sa fa ja) (Ori.D4 sb fb jb)).map (fun c => Ori.map_ij c n n i j)
      = some ((Ori.D4 sa fa ja).map_ij n n
          ((Ori.D4 sb fb jb).map_ij n n i j).1
          ((Ori.D4 sb fb jb).map_ij n n i j).2) := by
  rcases sa <;> rcases fa <;> rcases ja <;> rcases sb <;> rcases fb <;> rcases jb <;>
    simp [compose, d4_to_id, D4_COMP, id_to_d4_zero, id_to_d4_one, id_to_d4_two,
      id_to_d4_three, id_to_d4_four, id_to_d4_five, id_to_d4_six, id_to_d4_seven,
      Ori.map_ij] <;> omega

/-- Witness for `compose_map_ij_square` at `a = Z`, `b` = flip_j, `n = 2`,
`(i, j) = (0, 1)`. -/
theorem compose_map_ij_square_witness :
    (0 : Nat) < 2 ∧ (1 : Nat) < 2 ∧
    (compose (Ori.D4 true false false) (Ori.D4 false false true)).map
        (fun c => Ori.map_ij c 2 2 0 1)
      = some ((Ori.D4 true false false).map_ij 2 2
          ((Ori.D4 false false true).map_ij 2 2 0 1).1
          ((Ori.D4 false false true).map_ij 2 2 0 1).2) :=
  ⟨by decide, by decide,
    compose_map_ij_square true false false false false true 2 0 1
      (by decide) (by decide)⟩

/-- C2: group laws of the D4 composition table: `H` is a two-sided identity,
`Z` is self-inverse (`compose(Z, Z) = H`), every D4 element has a two-sided
inverse, `compose` is associative over all 512 ordered triples of D4
elements, and composing with `Each` or `Real` always returns `none`. -/
theorem compose_group_laws :
    (∀ s fi fj : Bool,
      compose ORI_H (Ori.D4 s fi fj) = some (Ori.D4 s fi fj) ∧
      compose (Ori.D4 s fi fj) ORI_H = some (Ori.D4 s fi fj)) ∧
    compose ORI_Z ORI_Z = some ORI_H ∧
    (∀ s fi fj : Bool, ∃ s2 fi2 fj2 : Bool,
      compose (Ori.D4 s fi fj) (Ori.D4 s2 fi2 fj2) = some ORI_H ∧
      compose (Ori.D4 s2 fi2 fj2) (Ori.D4 s fi fj) = some ORI_H) ∧
    (∀ sa fa ja sb fb jb sc fc jc : Bool,
      ((compose (Ori.D4 sa fa ja) (Ori.D4 sb fb jb)).bind
          (fun ab => compose ab (Ori.D4 sc fc jc)))
        = ((compose (Ori.D4 sb fb jb) (Ori.D4 sc fc jc)).bind
          (fun bc => compose (Ori.D4 sa fa ja) bc))) ∧
    (∀ a : Ori, compose a Ori.Each = none ∧ compose Ori.Each a = none ∧
      compose a Ori.Real = none ∧ compose Ori.Real a = none) := by
  refine ⟨by decide, by decide, by decide, by decide, ?_⟩
  intro a
  cases a <;> simp [compose, d4_to_id]

/-! ### f64 model

`f64` is modelled as `Option ℚ` with `none` playing the role of NaN; the
arithmetic operations propagate NaN as IEEE-754 does, and `f64::ln` is an
arbitrary parameter `lnf` (`ln` of a NaN is NaN; on ordinary values it may
produce either a value or NaN, which also absorbs the `ln(x ≤ 0)` cases). -/

/-- A model f64 value: `none` is NaN. -/
abbrev Flt := Option ℚ

/-- NaN-propagating addition. -/
def fadd : Flt → Flt → Flt
  | some x, some y => some (x + y)
  | _, _ => none

/-- NaN-propagating subtraction. -/
def fsub : Flt → Flt → Flt
  | some x, some y => some (x - y)
  | _, _ => none

/-- NaN-propagating multiplication. -/
def fmul : Flt → Flt → Flt
  | some x, some y => some (x * y)
  | _, _ => none

/-- `f64::ln` for a given model logarithm `lnf`; NaN maps to NaN. -/
def fln (lnf : ℚ → Option ℚ) : Flt → Flt
  | some x => lnf x
  | none => none

/-! ### Bitmap (src/table/bitmap.rs)

A `Bitmap` of length n is modelled by its list of n bits; the packed 64-bit
words are recovered by position arithmetic (`word w` covers positions
`64*w .. 64*w+63`, positions at or beyond `len` reading as 0 per the
documented invariant that unused tail bits are zero). -/

/-- `Bitmap::get`. -/
def bmGet (v : List Bool) (i : Nat) : Bool := v.getD i false

/-! ### Masked kernels (src/builtins/kernels_masked.rs, kernels_fused.rs)

The masked loops all share one body shape: at index `i`, when the validity
condition `c i` holds, write the computed data value `v i` and set the
output bit; otherwise only clear the output bit and skip the data write.
`mstep c v` is that body; each kernel instantiates `c` and `v` from its
source. -/

/-- One masked-loop iteration at index `i` on the state
(out data, out validity). -/
def mstep (c : Nat → Bool) (v : Nat → Flt) (s : List Flt × List Bool) (i : Nat) :
    List Flt × List Bool :=
  if c i then (s.1.set i (v i), s.2.set i true) else (s.1, s.2.set i false)

/-- `dlog_no_nulls`: NaN on the prefix (and everywhere when `lag = 0` or
`lag ≥ n`), else `ln(x[i]) - ln(x[i-lag])`. Writes every output position, so
it is modelled as the produced output list. -/
def dlog_no_nulls (lnf : ℚ → Option ℚ) (x : List Flt) (lag : Nat) : List Flt :=
  let n := x.length
  if lag = 0 ∨ n ≤ lag then List.replicate n none
  else
    (List.range n).map (fun i =>
      if i < lag then none
      else fsub (fln lnf (x.getD i none)) (fln lnf (x.getD (i - lag) none)))

/-- `dlog_scale_add_no_nulls`: fused `a * (ln(x[i]) - ln(x[i-lag])) + b`. -/
def dlog_scale_add_no_nulls (lnf : ℚ → Option ℚ) (x : List Flt) (lag : Nat)
    (a b : Flt) : List Flt :=
  let n := x.length
  if lag = 0 ∨ n ≤ lag then List.replicate n none
  else
    (List.range n).map (fun i =>
      if i < lag then none
      else fadd (fmul a
        (fsub (fln lnf (x.getD i none)) (fln lnf (x.getD (i - lag) none)))) b)

/-- `dlog_masked`: on degenerate lag fills the data with NaN and clears all
validity words; otherwise clears the prefix bits and runs the masked loop
with condition `x_valid[i] && x_valid[i-lag]`. `out`/`ov` are the buffer
contents before the call. -/
def dlog_masked (lnf : ℚ → Option ℚ) (x : List Flt) (xv : List Bool) (lag : Nat)
    (out : List Flt) (ov : List Bool) : List Flt × List Bool :=
  let n := x.length
  if lag = 0 ∨ n ≤ lag then (out.map (fun _ => none), ov.map (fun _ => false))
  else
    let c := fun i => bmGet xv i && bmGet xv (i - lag)
    let v := fun i => fsub (fln lnf (x.getD i none)) (fln lnf (x.getD (i - lag) none))
    let s1 := (List.range lag).foldl (mstep (fun _ => false) v) (out, ov)
    (List.range' lag (n - lag)).foldl (mstep c v) s1

/-- `dlog_scale_add_masked`: like `dlog_masked` but computes the fused
`a * (ln - ln) + b`, and on degenerate lag only clears validity (no data
fill). -/
def dlog_scale_add_masked (lnf : ℚ → Option ℚ) (x : List Flt) (xv : List Bool)
    (lag : Nat) (a b : Flt) (out : List Flt) (ov : List Bool) :
    List Flt × List Bool :=
  let n := x.length
  if lag = 0 ∨ n ≤ lag then (out, ov.map (fun _ => false))
  else
    let c := fun i => bmGet xv i && bmGet xv (i - lag)
    let v := fun i => fadd (fmul a
      (fsub (fln lnf (x.getD i none)) (fln lnf (x.getD (i - lag) none)))) b
    let s1 := (List.range lag).foldl (mstep (fun _ => false) v) (out, ov)
    (List.range' lag (n - lag)).foldl (mstep c v) s1

/-- `unary_masked`: masked elementwise `f`, validity passes through. -/
def unary_masked (f : Flt → Flt) (x : List Flt) (xv : List Bool)
    (out : List Flt) (ov : List Bool) : List Flt × List Bool :=
  (List.range x.length).foldl
    (mstep (fun i => bmGet xv i) (fun i => f (x.getD i none))) (out, ov)

/-- `binary_masked`: masked elementwise `f`, output valid iff both inputs
valid. -/
def binary_masked (f : Flt → Flt → Flt) (a : List Flt) (av : List Bool)
    (b : List Flt) (bv : List Bool) (out : List Flt) (ov : List Bool) :
    List Flt × List Bool :=
  (List.range a.length).foldl
    (mstep (fun i => bmGet av i && bmGet bv i)
      (fun i => f (a.getD i none) (b.getD i none))) (out, ov)

/-! ### Pointwise characterization of the masked loops -/

lemma getD_set (l : List α) (i j : Nat) (a d : α) :
    (l.set i a).getD j d = if j = i ∧ i < l.length then a else l.getD j d := by
  rcases Nat.lt_or_ge j l.length with hj | hj
  · simp only [List.getD_eq_getElem?_getD, List.getElem?_set]
    by_cases h : i = j
    · subst h
      simp [hj]
    · have : ¬(j = i ∧ i < l.length) := fun hh => h hh.1.symm
      simp [h, this]
  · have h2 : (l.set i a).length ≤ j := by simpa using hj
    rw [List.getD_eq_default _ _ h2, List.getD_eq_default _ _ hj]
    have : ¬(j = i ∧ i < l.length) := by omega
    simp [this]

lemma mstep_snd (c : Nat → Bool) (v : Nat → Flt) (s : List Flt × List Bool)
    (i : Nat) : (mstep c v s i).2 = s.2.set i (c i) := by
  by_cases h : c i <;> simp [mstep, h]

lemma mstep_length (c : Nat → Bool) (v : Nat → Flt) (s : List Flt × List Bool)
    (i : Nat) : ((mstep c v s i).1.length = s.1.length) ∧
      ((mstep c v s i).2.length = s.2.length) := by
  by_cases h : c i <;> simp [mstep, h]

lemma foldl_mstep_length (L : List Nat) (c : Nat → Bool) (v : Nat → Flt)
    (s : List Flt × List Bool) :
    ((L.foldl (mstep c v) s).1.length = s.1.length) ∧
      ((L.foldl (mstep c v) s).2.length = s.2.length) := by
  induction L generalizing s with
  | nil => simp
  | cons i L ih =>
    simp only [List.foldl_cons]
    rw [(ih (mstep c v s i)).1, (ih (mstep c v s i)).2,
      (mstep_length c v s i).1, (mstep_length c v s i).2]
    exact ⟨rfl, rfl⟩

lemma foldl_mstep_data (L : List Nat) (c : Nat → Bool) (v : Nat → Flt)
    (s : List Flt × List Bool) (p : Nat) (d : Flt) :
    (L.foldl (mstep c v) s).1.getD p d
      = if p ∈ L ∧ c p = true ∧ p < s.1.length then v p else s.1.getD p d := by
  induction L generalizing s with
  | nil => simp
  | cons i L ih =>
    simp only [List.foldl_cons]
    rw [ih (mstep c v s i), (mstep_length c v s i).1]
    have hs : (mstep c v s i).1.getD p d
        = if c i = true ∧ p = i ∧ i < s.1.length then v i else s.1.getD p d := by
      by_cases hc : c i
      · simp only [mstep, hc, if_true]
        rw [getD_set]
        by_cases hpi : p = i
        · subst hpi; simp [hc]
        · have h1 : ¬(p = i ∧ i < s.1.length) := fun hh => hpi hh.1
          have h2 : ¬(c i = true ∧ p = i ∧ i < s.1.length) := fun hh => hpi hh.2.1
          simp [h1, h2]
      · have : ¬(c i = true ∧ p = i ∧ i < s.1.length) := fun hh => by
          rw [hh.1] at hc; exact hc rfl
        simp [mstep, hc, this]
    rw [hs]
    by_cases hpi : p = i
    · subst hpi
      have hA : (p ∈ p :: L ∧ c p = true ∧ p < s.1.length)
          ↔ (c p = true ∧ p < s.1.length) := by
        simp [List.mem_cons]
      have hB : (c p = true ∧ p = p ∧ p < s.1.length)
          ↔ (c p = true ∧ p < s.1.length) := by simp
      simp only [hA, hB]
      by_cases hq : c p = true ∧ p < s.1.length
      · by_cases hc : p ∈ L ∧ c p = true ∧ p < s.1.length <;> simp [hc, hq]
      · have hc : ¬(p ∈ L ∧ c p = true ∧ p < s.1.length) := fun h => hq ⟨h.2.1, h.2.2⟩
        simp [hc, hq]
    · have hB : ¬(c i = true ∧ p = i ∧ i < s.1.length) := fun hh => hpi hh.2.1
      rw [if_neg hB]
      have hA : (p ∈ i :: L ∧ c p = true ∧ p < s.1.length)
          ↔ (p ∈ L ∧ c p = true ∧ p < s.1.length) := by
        simp [List.mem_cons, hpi]
      simp only [hA]

lemma foldl_setf_getD (L : List Nat) (g : Nat → α) (l : List α) (p : Nat) (d : α) :
    (L.foldl (fun acc i => acc.set i (g i)) l).getD p d
      = if p ∈ L ∧ p < l.length then g p else l.getD p d := by
  induction L generalizing l with
  | nil => simp
  | cons i L ih =>
    simp only [List.foldl_cons]
    rw [ih (l.set i (g i)), List.length_set, getD_set]
    by_cases hpi : p = i
    · subst hpi
      have hA : (p ∈ p :: L ∧ p < l.length) ↔ (p < l.length) := by
        simp [List.mem_cons]
      have hB : (p = p ∧ p < l.length) ↔ (p < l.length) := by simp
      simp only [hA, hB]
      by_cases hq : p < l.length
      · by_cases hc : p ∈ L ∧ p < l.length <;> simp [hc, hq]
      · have hc : ¬(p ∈ L ∧ p < l.length) := fun h => hq h.2
        simp [hc, hq]
    · have hB : ¬(p = i ∧ i < l.length) := fun hh => hpi hh.1
      rw [if_neg hB]
      have hA : (p ∈ i :: L ∧ p < l.length) ↔ (p ∈ L ∧ p < l.length) := by
        simp [List.mem_cons, hpi]
      simp only [hA]

lemma foldl_setf_length (L : List Nat) (g : Nat → α) (l : List α) :
    (L.foldl (fun acc i => acc.set i (g i)) l).length = l.length := by
  induction L generalizing l with
  | nil => rfl
  | cons i L ih => simp [List.foldl_cons, ih]

lemma foldl_mstep_snd (L : List Nat) (c : Nat → Bool) (v : Nat → Flt)
    (s : List Flt × List Bool) :
    (L.foldl (mstep c v) s).2 = L.foldl (fun acc i => acc.set i (c i)) s.2 := by
  induction L generalizing s with
  | nil => rfl
  | cons i L ih => simp only [List.foldl_cons]; rw [ih, mstep_snd]


lemma fmul_none (a : Flt) : fmul a none = none := by cases a <;> rfl

lemma fadd_none (b : Flt) : fadd none b = none := by cases b <;> rfl

lemma dlog_masked_valid (lnf : ℚ → Option ℚ) (x : List Flt) (xv : List Bool)
    (lag : Nat) (out : List Flt) (ov : List Bool)
    (hov : ov.length = x.length) (hl0 : lag ≠ 0) (hln : lag < x.length) (p : Nat) :
    bmGet (dlog_masked lnf x xv lag out ov).2 p
      = if p < lag then false
        else if p < x.length then (bmGet xv p && bmGet xv (p - lag))
        else false := by
  have hcond : ¬(lag = 0 ∨ x.length ≤ lag) := by omega
  simp only [dlog_masked, bmGet, if_neg hcond]
  rw [foldl_mstep_snd, foldl_setf_getD, foldl_mstep_snd, foldl_setf_getD,
    foldl_setf_length]
  simp only [List.mem_range, List.mem_range'_1, hov]
  rcases Nat.lt_or_ge p lag with hp | hp
  · have h1 : p < x.length := by omega
    simp [hp, h1]
  · rcases Nat.lt_or_ge p x.length with h2 | h2
    · have : lag ≤ p ∧ p < lag + (x.length - lag) := by omega
      simp [this, h2]
    · have h3 : ¬(lag ≤ p ∧ p < lag + (x.length - lag)) := by omega
      have h4 : ¬(p < lag) := by omega
      have h5 : x.length ≤ p := h2
      rw [if_neg (by tauto), if_neg (by omega), if_neg h4, if_neg (by omega)]
      exact List.getD_eq_default _ _ (by omega)

lemma dlog_masked_data (lnf : ℚ → Option ℚ) (x : List Flt) (xv : List Bool)
    (lag : Nat) (out : List Flt) (ov : List Bool)
    (hout : out.length = x.length) (hl0 : lag ≠ 0) (hln : lag < x.length) (p : Nat) :
    (dlog_masked lnf x xv lag out ov).1.getD p none
      = if lag ≤ p ∧ p < x.length ∧ (bmGet xv p && bmGet xv (p - lag)) = true
        then fsub (fln lnf (x.getD p none)) (fln lnf (x.getD (p - lag) none))
        else out.getD p none := by
  have hcond : ¬(lag = 0 ∨ x.length ≤ lag) := by omega
  simp only [dlog_masked, if_neg hcond]
  rw [foldl_mstep_data]
  have hlen : ((List.range lag).foldl
      (mstep (fun _ => false)
        (fun i => fsub (fln lnf (x.getD i none)) (fln lnf (x.getD (i - lag) none))))
      (out, ov)).1.length = out.length := (foldl_mstep_length _ _ _ _).1
  have hbase : ((List.range lag).foldl
      (mstep (fun _ => false)
        (fun i => fsub (fln lnf (x.getD i none)) (fln lnf (x.getD (i - lag) none))))
      (out, ov)).1.getD p none = out.getD p none := by
    rw [foldl_mstep_data]
    simp
  rw [hlen, hbase, hout]
  simp only [List.mem_range'_1]
  by_cases hc : (bmGet xv p && bmGet xv (p - lag)) = true
  · by_cases hq : lag ≤ p ∧ p < x.length
    · rw [if_pos ⟨⟨hq.1, by omega⟩, hc, hq.2⟩, if_pos ⟨hq.1, hq.2, hc⟩]
    · rw [if_neg (by omega), if_neg (by tauto)]
  · rw [if_neg (by tauto), if_neg (by tauto)]



lemma unary_masked_valid (f : Flt → Flt) (x : List Flt) (xv : List Bool)
    (out : List Flt) (ov : List Bool) (hov : ov.length = x.length) (p : Nat) :
    bmGet (unary_masked f x xv out ov).2 p
      = if p < x.length then bmGet xv p else false := by
  simp only [unary_masked, bmGet]
  rw [foldl_mstep_snd, foldl_setf_getD]
  simp only [List.mem_range, hov]
  rcases Nat.lt_or_ge p x.length with h | h
  · simp [h]
  · rw [if_neg (by omega), if_neg (by omega)]
    exact List.getD_eq_default _ _ (by omega)

lemma unary_masked_data (f : Flt → Flt) (x : List Flt) (xv : List Bool)
    (out : List Flt) (ov : List Bool) (hout : out.length = x.length) (p : Nat) :
    (unary_masked f x xv out ov).1.getD p none
      = if p < x.length ∧ bmGet xv p = true then f (x.getD p none)
        else out.getD p none := by
  simp only [unary_masked]
  rw [foldl_mstep_data]
  simp only [List.mem_range, hout]
  by_cases h : p < x.length ∧ bmGet xv p = true
  · rw [if_pos ⟨h.1, h.2, h.1⟩, if_pos h]
  · rw [if_neg (by tauto), if_neg h]

lemma binary_masked_valid (f : Flt → Flt → Flt) (a : List Flt) (av : List Bool)
    (b : List Flt) (bv : List Bool) (out : List Flt) (ov : List Bool)
    (hov : ov.length = a.length) (p : Nat) :
    bmGet (binary_masked f a av b bv out ov).2 p
      = if p < a.length then (bmGet av p && bmGet bv p) else false := by
  simp only [binary_masked, bmGet]
  rw [foldl_mstep_snd, foldl_setf_getD]
  simp only [List.mem_range, hov]
  rcases Nat.lt_or_ge p a.length with h | h
  · simp [h]
  · rw [if_neg (by omega), if_neg (by omega)]
    exact List.getD_eq_default _ _ (by omega)

lemma binary_masked_data (f : Flt → Flt → Flt) (a : List Flt) (av : List Bool)
    (b : List Flt) (bv : List Bool) (out : List Flt) (ov : List Bool)
    (hout : out.length = a.length) (p : Nat) :
    (binary_masked f a av b bv out ov).1.getD p none
      = if p < a.length ∧ (bmGet av p && bmGet bv p) = true
        then f (a.getD p none) (b.getD p none)
        else out.getD p none := by
  simp only [binary_masked]
  rw [foldl_mstep_data]
  simp only [List.mem_range, hout]
  by_cases h : p < a.length ∧ (bmGet av p && bmGet bv p) = true
  · rw [if_pos ⟨h.1, h.2, h.1⟩, if_pos h]
  · rw [if_neg (by tauto), if_neg h]

lemma dlog_scale_add_masked_valid (lnf : ℚ → Option ℚ) (x : List Flt)
    (xv : List Bool) (lag : Nat) (a b : Flt) (out : List Flt) (ov : List Bool)
    (hov : ov.length = x.length) (hl0 : lag ≠ 0) (hln : lag < x.length) (p : Nat) :
    bmGet (dlog_scale_add_masked lnf x xv lag a b out ov).2 p
      = if p < lag then false
        else if p < x.length then (bmGet xv p && bmGet xv (p - lag))
        else false := by
  have hcond : ¬(lag = 0 ∨ x.length ≤ lag) := by omega
  simp only [dlog_scale_add_masked, bmGet, if_neg hcond]
  rw [foldl_mstep_snd, foldl_setf_getD, foldl_mstep_snd, foldl_setf_getD,
    foldl_setf_length]
  simp only [List.mem_range, List.mem_range'_1, hov]
  rcases Nat.lt_or_ge p lag with hp | hp
  · have h1 : p < x.length := by omega
    simp [hp, h1]
  · rcases Nat.lt_or_ge p x.length with h2 | h2
    · have : lag ≤ p ∧ p < lag + (x.length - lag) := by omega
      simp [this, h2]
    · have h3 : ¬(lag ≤ p ∧ p < lag + (x.length - lag)) := by omega
      have h4 : ¬(p < lag) := by omega
      rw [if_neg (by tauto), if_neg (by omega), if_neg h4, if_neg (by omega)]
      exact List.getD_eq_default _ _ (by omega)

lemma dlog_scale_add_masked_data (lnf : ℚ → Option ℚ) (x : List Flt)
    (xv : List Bool) (lag : Nat) (a b : Flt) (out : List Flt) (ov : List Bool)
    (hout : out.length = x.length) (hl0 : lag ≠ 0) (hln : lag < x.length) (p : Nat) :
    (dlog_scale_add_masked lnf x xv lag a b out ov).1.getD p none
      = if lag ≤ p ∧ p < x.length ∧ (bmGet xv p && bmGet xv (p - lag)) = true
        then fadd (fmul a
          (fsub (fln lnf (x.getD p none)) (fln lnf (x.getD (p - lag) none)))) b
        else out.getD p none := by
  have hcond : ¬(lag = 0 ∨ x.length ≤ lag) := by omega
  simp only [dlog_scale_add_masked, if_neg hcond]
  rw [foldl_mstep_data]
  have hlen : ((List.range lag).foldl
      (mstep (fun _ => false)
        (fun i => fadd (fmul a
          (fsub (fln lnf (x.getD i none)) (fln lnf (x.getD (i - lag) none)))) b))
      (out, ov)).1.length = out.length := (foldl_mstep_length _ _ _ _).1
  have hbase : ((List.range lag).foldl
      (mstep (fun _ => false)
        (fun i => fadd (fmul a
          (fsub (fln lnf (x.getD i none)) (fln lnf (x.getD (i - lag) none)))) b))
      (out, ov)).1.getD p none = out.getD p none := by
    rw [foldl_mstep_data]
    simp
  rw [hlen, hbase, hout]
  simp only [List.mem_range'_1]
  by_cases hc : (bmGet xv p && bmGet xv (p - lag)) = true
  · by_cases hq : lag ≤ p ∧ p < x.length
    · rw [if_pos ⟨⟨hq.1, by omega⟩, hc, hq.2⟩, if_pos ⟨hq.1, hq.2, hc⟩]
    · rw [if_neg (by omega), if_neg (by tauto)]
  · rw [if_neg (by tauto), if_neg (by tauto)]

lemma dlog_masked_degen (lnf : ℚ → Option ℚ) (x : List Flt) (xv : List Bool)
    (lag : Nat) (out : List Flt) (ov : List Bool)
    (h : lag = 0 ∨ x.length ≤ lag) :
    dlog_masked lnf x xv lag out ov
      = (out.map (fun _ => none), ov.map (fun _ => false)) := by
  simp [dlog_masked, h]

lemma dlog_scale_add_masked_degen (lnf : ℚ → Option ℚ) (x : List Flt)
    (xv : List Bool) (lag : Nat) (a b : Flt) (out : List Flt) (ov : List Bool)
    (h : lag = 0 ∨ x.length ≤ lag) :
    dlog_scale_add_masked lnf x xv lag a b out ov
      = (out, ov.map (fun _ => false)) := by
  simp [dlog_scale_add_masked, h]



lemma map_const_getD (l : List α) (c : β) (p : Nat) :
    (l.map (fun _ => c)).getD p c = c := by
  rcases Nat.lt_or_ge p l.length with h | h
  · rw [List.getD_eq_getElem _ _ (by simpa using h)]
    simp
  · exact List.getD_eq_default _ _ (by simpa using h)

/-- C4: output validity of masked kernels is the conjunction of the required
input validities: `binary_masked` gives `out_valid[i] = a_valid[i] && b_valid[i]`
for every index, and `dlog_masked` with `1 ≤ lag < n` gives
`out_valid[i] = x_valid[i] && x_valid[i-lag]` for `i ≥ lag` and `false` below
the lag. -/
theorem masked_validity_conjunction :
    (∀ (f : Flt → Flt → Flt) (a : List Flt) (av : List Bool) (b : List Flt)
        (bv : List Bool) (out : List Flt) (ov : List Bool),
      av.length = a.length → b.length = a.length → bv.length = a.length →
      out.length = a.length → ov.length = a.length →
      ∀ i < a.length,
        bmGet (binary_masked f a av b bv out ov).2 i
          = (bmGet av i && bmGet bv i)) ∧
    (∀ (lnf : ℚ → Option ℚ) (x : List Flt) (xv : List Bool) (lag : Nat)
        (out : List Flt) (ov : List Bool),
      xv.length = x.length → out.length = x.length → ov.length = x.length →
      1 ≤ lag → lag < x.length →
      (∀ i, lag ≤ i → i < x.length →
        bmGet (dlog_masked lnf x xv lag out ov).2 i
          = (bmGet xv i && bmGet xv (i - lag))) ∧
      (∀ i < lag, bmGet (dlog_masked lnf x xv lag out ov).2 i = false)) := by
  constructor
  · intro f a av b bv out ov _ _ _ _ hov i hi
    rw [binary_masked_valid f a av b bv out ov hov i, if_pos hi]
  · intro lnf x xv lag out ov _ _ hov h1 h2
    constructor
    · intro i hil hin
      rw [dlog_masked_valid lnf x xv lag out ov hov (by omega) h2 i,
        if_neg (by omega), if_pos hin]
    · intro i hil
      rw [dlog_masked_valid lnf x xv lag out ov hov (by omega) h2 i, if_pos hil]

/-- Witness for `masked_validity_conjunction` on concrete length-2 inputs. -/
theorem masked_validity_conjunction_witness :
    ([true, false] : List Bool).length = ([some 1, some 2] : List Flt).length ∧
    (0 : Nat) < ([some 1, some 2] : List Flt).length ∧
    bmGet (binary_masked fadd [some 1, some 2] [true, false]
        [some 3, some 4] [true, true] [none, none] [false, false]).2 0
      = (bmGet [true, false] 0 && bmGet [true, true] 0) :=
  ⟨by decide, by decide,
    masked_validity_conjunction.1 fadd [some 1, some 2] [true, false]
      [some 3, some 4] [true, true] [none, none] [false, false]
      (by decide) (by decide) (by decide) (by decide) (by decide) 0 (by decide)⟩



/-- C5 counterexample: `dlog_masked` with `lag = 0` on `x = [1.0]`,
`out = [7.0]` marks position 0 invalid yet overwrites the data with NaN, so
the claimed skip-write contract fails for degenerate lags. -/
theorem dlog_masked_writes_at_degenerate_lag :
    bmGet (dlog_masked (fun q => some q) [some 1] [true] 0 [some 7] [true]).2 0
      = false ∧
    (dlog_masked (fun q => some q) [some 1] [true] 0 [some 7] [true]).1.getD 0 none
      ≠ some 7 := by
  constructor
  · decide
  · decide

/-- C5 (amended): masked kernels never write the data buffer at a position
they mark invalid — unconditionally for `unary_masked`, `binary_masked` and
`dlog_scale_add_masked` (every lag), and for `dlog_masked` whenever
`1 ≤ lag < n`; in the degenerate case `lag = 0` or `lag ≥ n`, `dlog_masked`
fills the whole data buffer with NaN. -/
theorem masked_skip_write_amended :
    (∀ (f : Flt → Flt) (x : List Flt) (xv : List Bool) (out : List Flt)
        (ov : List Bool),
      xv.length = x.length → out.length = x.length → ov.length = x.length →
      ∀ p, bmGet (unary_masked f x xv out ov).2 p = false →
        (unary_masked f x xv out ov).1.getD p none = out.getD p none) ∧
    (∀ (f : Flt → Flt → Flt) (a : List Flt) (av : List Bool) (b : List Flt)
        (bv : List Bool) (out : List Flt) (ov : List Bool),
      av.length = a.length → b.length = a.length → bv.length = a.length →
      out.length = a.length → ov.length = a.length →
      ∀ p, bmGet (binary_masked f a av b bv out ov).2 p = false →
        (binary_masked f a av b bv out ov).1.getD p none = out.getD p none) ∧
    (∀ (lnf : ℚ → Option ℚ) (x : List Flt) (xv : List Bool) (lag : Nat)
        (a b : Flt) (out : List Flt) (ov : List Bool),
      xv.length = x.length → out.length = x.length → ov.length = x.length →
      ∀ p, bmGet (dlog_scale_add_masked lnf x xv lag a b out ov).2 p = false →
        (dlog_scale_add_masked lnf x xv lag a b out ov).1.getD p none
          = out.getD p none) ∧
    (∀ (lnf : ℚ → Option ℚ) (x : List Flt) (xv : List Bool) (lag : Nat)
        (out : List Flt) (ov : List Bool),
      xv.length = x.length → out.length = x.length → ov.length = x.length →
      1 ≤ lag → lag < x.length →
      ∀ p, bmGet (dlog_masked lnf x xv lag out ov).2 p = false →
        (dlog_masked lnf x xv lag out ov).1.getD p none = out.getD p none) := by
  refine ⟨?_, ?_, ?_, ?_⟩
  · intro f x xv out ov _ hout hov p hvalid
    rw [unary_masked_valid f x xv out ov hov p] at hvalid
    rw [unary_masked_data f x xv out ov hout p]
    by_cases hp : p < x.length
    · rw [if_pos hp] at hvalid
      rw [if_neg (by simp [hvalid])]
    · rw [if_neg (by tauto)]
  · intro f a av b bv out ov _ _ _ hout hov p hvalid
    rw [binary_masked_valid f a av b bv out ov hov p] at hvalid
    rw [binary_masked_data f a av b bv out ov hout p]
    by_cases hp : p < a.length
    · rw [if_pos hp] at hvalid
      rw [if_neg (by simp [hvalid])]
    · rw [if_neg (by tauto)]
  · intro lnf x xv lag a b out ov _ hout hov p hvalid
    by_cases hdeg : lag = 0 ∨ x.length ≤ lag
    · rw [dlog_scale_add_masked_degen lnf x xv lag a b out ov hdeg]
    · rw [dlog_scale_add_masked_valid lnf x xv lag a b out ov hov
        (by omega) (by omega) p] at hvalid
      rw [dlog_scale_add_masked_data lnf x xv lag a b out ov hout
        (by omega) (by omega) p]
      by_cases hp : lag ≤ p ∧ p < x.length
      · rw [if_neg (by omega), if_pos hp.2] at hvalid
        rw [if_neg (by simp [hvalid])]
      · rw [if_neg (by tauto)]
  · intro lnf x xv lag out ov _ hout hov hl1 hl2 p hvalid
    rw [dlog_masked_valid lnf x xv lag out ov hov (by omega) hl2 p] at hvalid
    rw [dlog_masked_data lnf x xv lag out ov hout (by omega) hl2 p]
    by_cases hp : lag ≤ p ∧ p < x.length
    · rw [if_neg (by omega), if_pos hp.2] at hvalid
      rw [if_neg (by simp [hvalid])]
    · rw [if_neg (by tauto)]

/-- Witness for `masked_skip_write_amended` (the `dlog_masked` conjunct) at a
concrete invalid position. -/
theorem masked_skip_write_amended_witness :
    ([true, false] : List Bool).length = ([some 1, some 2] : List Flt).length ∧
    (1 : Nat) ≤ 1 ∧ (1 : Nat) < ([some 1, some 2] : List Flt).length ∧
    bmGet (dlog_masked (fun q => some q) [some 1, some 2] [true, false] 1
        [some 7, some 8] [true, true]).2 1 = false ∧
    (dlog_masked (fun q => some q) [some 1, some 2] [true, false] 1
        [some 7, some 8] [true, true]).1.getD 1 none
      = ([some 7, some 8] : List Flt).getD 1 none :=
  ⟨by decide, by decide, by decide, by decide,
    masked_skip_write_amended.2.2.2 (fun q => some q) [some 1, some 2]
      [true, false] 1 [some 7, some 8] [true, true]
      (by decide) (by decide) (by decide) (by decide) (by decide) 1 (by decide)⟩



lemma dlog_scale_add_no_nulls_eq (lnf : ℚ → Option ℚ) (x : List Flt) (lag : Nat)
    (a b : Flt) :
    dlog_scale_add_no_nulls lnf x lag a b
      = (dlog_no_nulls lnf x lag).map (fun y => fadd (fmul a y) b) := by
  unfold dlog_scale_add_no_nulls dlog_no_nulls
  by_cases h : lag = 0 ∨ x.length ≤ lag
  · simp only [h, if_true, List.map_replicate]
    rw [fmul_none a, fadd_none b]
  · simp only [h, if_false, List.map_map]
    apply List.map_congr_left
    intro i _
    simp only [Function.comp_apply]
    by_cases hlt : i < lag
    · simp only [hlt, if_true]
      rw [fmul_none a, fadd_none b]
    · simp [hlt]



lemma dlog_masked_length (lnf : ℚ → Option ℚ) (x : List Flt) (xv : List Bool)
    (lag : Nat) (out : List Flt) (ov : List Bool) :
    ((dlog_masked lnf x xv lag out ov).1.length = out.length) ∧
      ((dlog_masked lnf x xv lag out ov).2.length = ov.length) := by
  by_cases h : lag = 0 ∨ x.length ≤ lag
  · rw [dlog_masked_degen lnf x xv lag out ov h]
    simp
  · simp only [dlog_masked, if_neg h]
    constructor
    · rw [(foldl_mstep_length _ _ _ _).1, (foldl_mstep_length _ _ _ _).1]
    · rw [(foldl_mstep_length _ _ _ _).2, (foldl_mstep_length _ _ _ _).2]

/-- C3: the fused `dlog_scale_add` kernels agree with the unfused
composition of `dlog` followed by the elementwise `a*y + b`: the no-nulls
variants are NaN at exactly the same positions and their values differ by at
most 1e-10 (they are in fact equal); the masked variants produce the same
output validity everywhere and equal data at every valid position. -/
theorem fusion_equivalence :
    (∀ (lnf : ℚ → Option ℚ) (x : List Flt) (lag : Nat) (a b : Flt) (i : Nat),
      ((dlog_scale_add_no_nulls lnf x lag a b).getD i none = none
        ↔ ((dlog_no_nulls lnf x lag).map (fun y => fadd (fmul a y) b)).getD i none
            = none) ∧
      (∀ v w : ℚ,
        (dlog_scale_add_no_nulls lnf x lag a b).getD i none = some v →
        ((dlog_no_nulls lnf x lag).map (fun y => fadd (fmul a y) b)).getD i none
            = some w →
        |v - w| ≤ 1 / 10 ^ 10)) ∧
    (∀ (lnf : ℚ → Option ℚ) (x : List Flt) (xv : List Bool) (lag : Nat)
        (a b : Flt) (out : List Flt) (ov : List Bool) (d : List Flt)
        (dv : List Bool) (out2 : List Flt) (ov2 : List Bool),
      xv.length = x.length → out.length = x.length → ov.length = x.length →
      d.length = x.length → dv.length = x.length →
      out2.length = x.length → ov2.length = x.length →
      (∀ p, bmGet (dlog_scale_add_masked lnf x xv lag a b out ov).2 p
        = bmGet (unary_masked (fun y => fadd (fmul a y) b)
            (dlog_masked lnf x xv lag d dv).1
            (dlog_masked lnf x xv lag d dv).2 out2 ov2).2 p) ∧
      (∀ p, bmGet (dlog_scale_add_masked lnf x xv lag a b out ov).2 p = true →
        (dlog_scale_add_masked lnf x xv lag a b out ov).1.getD p none
          = (unary_masked (fun y => fadd (fmul a y) b)
              (dlog_masked lnf x xv lag d dv).1
              (dlog_masked lnf x xv lag d dv).2 out2 ov2).1.getD p none)) := by
  constructor
  · intro lnf x lag a b i
    rw [dlog_scale_add_no_nulls_eq]
    refine ⟨Iff.rfl, ?_⟩
    intro v w h1 h2
    rw [h1] at h2
    have : v = w := by injection h2
    rw [this]
    simp
  · intro lnf x xv lag a b out ov d dv out2 ov2 hxv hout hov hd hdv hout2 hov2
    have hD1 : (dlog_masked lnf x xv lag d dv).1.length = x.length := by
      rw [(dlog_masked_length lnf x xv lag d dv).1, hd]
    have hD2 : (dlog_masked lnf x xv lag d dv).2.length = x.length := by
      rw [(dlog_masked_length lnf x xv lag d dv).2, hdv]
    constructor
    · intro p
      by_cases hdeg : lag = 0 ∨ x.length ≤ lag
      · rw [dlog_scale_add_masked_degen lnf x xv lag a b out ov hdeg]
        rw [unary_masked_valid _ _ _ _ _ (by rw [hov2, hD1]) p]
        rw [dlog_masked_degen lnf x xv lag d dv hdeg]
        simp only [bmGet, map_const_getD]
        split_ifs <;> rfl
      · rw [dlog_scale_add_masked_valid lnf x xv lag a b out ov hov
          (by omega) (by omega) p]
        rw [unary_masked_valid _ _ _ _ _ (by rw [hov2, hD1]) p]
        rw [hD1]
        rw [show bmGet (dlog_masked lnf x xv lag d dv).2 p
            = if p < lag then false
              else if p < x.length then (bmGet xv p && bmGet xv (p - lag))
              else false from
          dlog_masked_valid lnf x xv lag d dv hdv (by omega) (by omega) p]
        by_cases h1 : p < lag
        · have : p < x.length := by omega
          simp [h1, this]
        · by_cases h2 : p < x.length <;> simp [h1, h2]
    · intro p hvalid
      by_cases hdeg : lag = 0 ∨ x.length ≤ lag
      · rw [dlog_scale_add_masked_degen lnf x xv lag a b out ov hdeg] at hvalid
        simp only [bmGet, map_const_getD] at hvalid
        exact absurd hvalid (by simp)
      · rw [dlog_scale_add_masked_valid lnf x xv lag a b out ov hov
          (by omega) (by omega) p] at hvalid
        have hp : lag ≤ p ∧ p < x.length ∧ (bmGet xv p && bmGet xv (p - lag)) = true := by
          by_cases h1 : p < lag
          · rw [if_pos h1] at hvalid; exact absurd hvalid (by simp)
          · rw [if_neg h1] at hvalid
            by_cases h2 : p < x.length
            · rw [if_pos h2] at hvalid
              exact ⟨by omega, h2, hvalid⟩
            · rw [if_neg h2] at hvalid; exact absurd hvalid (by simp)
        rw [dlog_scale_add_masked_data lnf x xv lag a b out ov hout
          (by omega) (by omega) p, if_pos hp]
        rw [unary_masked_data _ _ _ _ _ (by rw [hout2, hD1]) p]
        have hDv : bmGet (dlog_masked lnf x xv lag d dv).2 p = true := by
          rw [dlog_masked_valid lnf x xv lag d dv hdv (by omega) (by omega) p,
            if_neg (by omega), if_pos hp.2.1]
          exact hp.2.2
        rw [if_pos ⟨by rw [hD1]; exact hp.2.1, hDv⟩]
        rw [dlog_masked_data lnf x xv lag d dv hd (by omega) (by omega) p,
          if_pos hp]



/-- Witness for `fusion_equivalence` (masked conjunct) on concrete length-2
inputs. -/
theorem fusion_equivalence_witness :
    ([true, true] : List Bool).length = ([some 1, some 2] : List Flt).length ∧
    bmGet (dlog_scale_add_masked (fun q => some q) [some 1, some 2] [true, true]
        1 (some 2) (some 3) [none, none] [false, false]).2 1
      = bmGet (unary_masked (fun y => fadd (fmul (some 2) y) (some 3))
          (dlog_masked (fun q => some q) [some 1, some 2] [true, true] 1
            [none, none] [false, false]).1
          (dlog_masked (fun q => some q) [some 1, some 2] [true, true] 1
            [none, none] [false, false]).2 [none, none] [false, false]).2 1 :=
  ⟨by decide,
    (fusion_equivalence.2 (fun q => some q) [some 1, some 2] [true, true] 1
      (some 2) (some 3) [none, none] [false, false] [none, none] [false, false]
      [none, none] [false, false] (by decide) (by decide) (by decide) (by decide)
      (by decide) (by decide) (by decide)).1 1⟩



/-! ### Word-wise kernel (src/builtins/kernels_wordwise.rs) -/

/-- Word `w` of a bitmap equals `!0u64`: all 64 bit positions are set (bits at
or beyond the length read as 0, matching the zero-tail invariant). -/
def wordAllOnes (v : List Bool) (w : Nat) : Bool :=
  (List.range 64).all (fun k => bmGet v (64 * w + k))

/-- Word `w` of a bitmap equals `0`: all 64 bit positions are clear. -/
def wordAllZeros (v : List Bool) (w : Nat) : Bool :=
  (List.range 64).all (fun k => !bmGet v (64 * w + k))

/-- `bits_mut()[w] = c ? !0 : 0`: overwrite the 64 bits of word `w`. -/
def setWordBits (ov : List Bool) (w : Nat) (c : Bool) : List Bool :=
  ((List.range 64).map (fun k => 64 * w + k)).foldl (fun acc i => acc.set i c) ov

/-- The body of the word loop of `dlog_wordwise` for word `w`: per-bit
fallback when the word overlaps the prefix; tight no-check loop plus a whole
`!0` word write when the lag offset is aligned and both the current and the
lag word are all-valid; compute-free `0` word write when the current word is
all-null; per-bit fallback otherwise. -/
def wbody (xv : List Bool) (lag n : Nat) (c : Nat → Bool) (v : Nat → Flt)
    (s : List Flt × List Bool) (w : Nat) : List Flt × List Bool :=
  let start := 64 * w
  let e := min (start + 64) n
  if start < lag then
    (List.range' (max start lag) (e - max start lag)).foldl (mstep c v) s
  else
    let lagOffset := (start - lag) % 64
    let allv := (lagOffset == 0) && wordAllOnes xv w
        && wordAllOnes xv ((start - lag) / 64)
    if allv then
      ((List.range' start (e - start)).foldl (fun acc i => acc.set i (v i)) s.1,
        setWordBits s.2 w true)
    else if wordAllZeros xv w then
      (s.1, setWordBits s.2 w false)
    else
      (List.range' start (e - start)).foldl (mstep c v) s

/-- `dlog_wordwise`: clears the prefix bits and then processes the bitmap one
64-bit word at a time via `wbody`; on degenerate lag it only clears all
validity words. -/
def dlog_wordwise (lnf : ℚ → Option ℚ) (x : List Flt) (xv : List Bool)
    (lag : Nat) (out : List Flt) (ov : List Bool) : List Flt × List Bool :=
  let n := x.length
  if lag = 0 ∨ n ≤ lag then (out, ov.map (fun _ => false))
  else
    let c := fun i => bmGet xv i && bmGet xv (i - lag)
    let v := fun i => fsub (fln lnf (x.getD i none)) (fln lnf (x.getD (i - lag) none))
    let numWords := (n + 63) / 64
    let s1 := (List.range lag).foldl (mstep (fun _ => false) v) (out, ov)
    (List.range numWords).foldl (wbody xv lag n c v) s1

lemma bmGet_true_lt (v : List Bool) (i : Nat) (h : bmGet v i = true) :
    i < v.length := by
  by_contra hc
  rw [bmGet, List.getD_eq_default _ _ (by omega)] at h
  exact Bool.false_ne_true h

lemma wordAllOnes_get (v : List Bool) (w : Nat) (h : wordAllOnes v w = true)
    (k : Nat) (hk : k < 64) : bmGet v (64 * w + k) = true := by
  rw [wordAllOnes, List.all_eq_true] at h
  exact h k (List.mem_range.mpr hk)

lemma wordAllZeros_get (v : List Bool) (w : Nat) (h : wordAllZeros v w = true)
    (k : Nat) (hk : k < 64) : bmGet v (64 * w + k) = false := by
  rw [wordAllZeros, List.all_eq_true] at h
  simpa using h k (List.mem_range.mpr hk)

lemma setWordBits_eq_foldl (ov : List Bool) (w : Nat) (c : Bool) :
    setWordBits ov w c
      = (List.range' (64 * w) 64).foldl (fun acc i => acc.set i c) ov := by
  rw [setWordBits, List.range'_eq_map_range, List.foldl_map]

lemma mstep_chunk_all_true (c : Nat → Bool) (v : Nat → Flt) (L : List Nat)
    (s : List Flt × List Bool) (h : ∀ i ∈ L, c i = true) :
    L.foldl (mstep c v) s
      = (L.foldl (fun acc i => acc.set i (v i)) s.1,
         L.foldl (fun acc i => acc.set i true) s.2) := by
  induction L generalizing s with
  | nil => rfl
  | cons i L ih =>
    simp only [List.foldl_cons]
    rw [ih _ (fun j hj => h j (List.mem_cons_of_mem i hj))]
    have hc : c i = true := h i (List.mem_cons_self i L)
    simp [mstep, hc]

lemma mstep_chunk_all_false (c : Nat → Bool) (v : Nat → Flt) (L : List Nat)
    (s : List Flt × List Bool) (h : ∀ i ∈ L, c i = false) :
    L.foldl (mstep c v) s
      = (s.1, L.foldl (fun acc i => acc.set i false) s.2) := by
  induction L generalizing s with
  | nil => rfl
  | cons i L ih =>
    simp only [List.foldl_cons]
    rw [ih _ (fun j hj => h j (List.mem_cons_of_mem i hj))]
    have hc : c i = false := h i (List.mem_cons_self i L)
    simp [mstep, hc]

lemma foldl_set_oob (L : List Nat) (c : Bool) (l : List Bool)
    (h : ∀ i ∈ L, l.length ≤ i) : L.foldl (fun acc i => acc.set i c) l = l := by
  induction L with
  | nil => rfl
  | cons i L ih =>
    simp only [List.foldl_cons]
    rw [List.set_eq_of_length_le (h i (List.mem_cons_self i L))]
    exact ih (fun j hj => h j (List.mem_cons_of_mem i hj))



lemma wbody_fold_inv (xv : List Bool) (lag n : Nat) (c : Nat → Bool) (v : Nat → Flt)
    (hc : ∀ i, c i = (bmGet xv i && bmGet xv (i - lag)))
    (hxvlen : xv.length = n) (hl0 : lag ≠ 0) (hln : lag < n)
    (s1 : List Flt × List Bool) (h2len : s1.2.length = n) :
    ∀ w, w ≤ (n + 63) / 64 →
      (List.range w).foldl (wbody xv lag n c v) s1
        = (List.range' lag (max lag (min (64 * w) n) - lag)).foldl (mstep c v) s1 := by
  intro w
  induction w with
  | zero =>
    intro _
    have : max lag (min (64 * 0) n) - lag = 0 := by omega
    rw [this]
    simp
  | succ w ih =>
    intro hw
    have hw' : w ≤ (n + 63) / 64 := by omega
    rw [List.range_succ, List.foldl_append, ih hw', List.foldl_cons, List.foldl_nil]
    have hstartn : 64 * w < n := by omega
    set sW := (List.range' lag (max lag (min (64 * w) n) - lag)).foldl (mstep c v) s1
      with hsW
    have hsW2len : sW.2.length = n := by
      rw [hsW, (foldl_mstep_length _ _ _ _).2, h2len]
    simp only [wbody]
    by_cases hA : 64 * w < lag
    · rw [if_pos hA]
      have hsW_eq : sW = s1 := by
        have : max lag (min (64 * w) n) - lag = 0 := by omega
        rw [hsW, this]
        simp
      rw [hsW_eq]
      have h1 : max (64 * w) lag = lag := by omega
      have h2 : min (64 * w + 64) n - lag
          = max lag (min (64 * (w + 1)) n) - lag := by omega
      rw [h1, h2]
    · rw [if_neg hA]
      have hlagle : lag ≤ 64 * w := by omega
      have humax : max lag (min (64 * w) n) = 64 * w := by omega
      -- the target chunk bound
      have hcomb : ∀ k : Nat, k = min (64 * w + 64) n - 64 * w →
          (List.range' (64 * w) k).foldl (mstep c v) sW
            = (List.range' lag (max lag (min (64 * (w + 1)) n) - lag)).foldl
                (mstep c v) s1 := by
        intro k hk
        have hM : max lag (min (64 * (w + 1)) n) - lag = k + (64 * w - lag) := by omega
        have hsplit : List.range' lag (k + (64 * w - lag))
            = List.range' lag (64 * w - lag) ++ List.range' (lag + (64 * w - lag)) k :=
          (List.range'_append_1 lag (64 * w - lag) k).symm
        have hstart : lag + (64 * w - lag) = 64 * w := by omega
        rw [hM, hsplit, hstart, List.foldl_append, ← humax, ← hsW]
      by_cases hB1 : (((64 * w - lag) % 64 == 0) && wordAllOnes xv w
          && wordAllOnes xv ((64 * w - lag) / 64)) = true
      · rw [if_pos hB1]
        have hoff : (64 * w - lag) % 64 = 0 := by
          have := (Bool.and_eq_true _ _).mp hB1
          have := (Bool.and_eq_true _ _).mp this.1
          simpa using this.1
        have hones : wordAllOnes xv w = true := by
          have := (Bool.and_eq_true _ _).mp hB1
          exact ((Bool.and_eq_true _ _).mp this.1).2
        have hlones : wordAllOnes xv ((64 * w - lag) / 64) = true :=
          ((Bool.and_eq_true _ _).mp hB1).2
        have hfull : 64 * w + 64 ≤ n := by
          have h63 : bmGet xv (64 * w + 63) = true := wordAllOnes_get xv w hones 63 (by omega)
          have := bmGet_true_lt xv _ h63
          omega
        have he : min (64 * w + 64) n = 64 * w + 64 := by omega
        have hctrue : ∀ i ∈ List.range' (64 * w) (64 * w + 64 - 64 * w), c i = true := by
          intro i hi
          rw [List.mem_range'_1] at hi
          rw [hc i]
          have hcur : bmGet xv i = true := by
            have := wordAllOnes_get xv w hones (i - 64 * w) (by omega)
            have heq : 64 * w + (i - 64 * w) = i := by omega
            rwa [heq] at this
          have hlagbit : bmGet xv (i - lag) = true := by
            have hrep : 64 * w - lag = 64 * ((64 * w - lag) / 64) := by omega
            have := wordAllOnes_get xv ((64 * w - lag) / 64) hlones (i - 64 * w) (by omega)
            have heq : 64 * ((64 * w - lag) / 64) + (i - 64 * w) = i - lag := by omega
            rwa [heq] at this
          rw [hcur, hlagbit]
          rfl
        rw [← hcomb (64 * w + 64 - 64 * w) (by omega)]
        rw [he]
        rw [mstep_chunk_all_true c v _ sW hctrue]
        rw [setWordBits_eq_foldl]
        have h64 : 64 * w + 64 - 64 * w = 64 := by omega
        rw [h64]
      · rw [if_neg hB1]
        by_cases hB2 : wordAllZeros xv w = true
        · rw [if_pos hB2]
          rw [← hcomb (min (64 * w + 64) n - 64 * w) rfl]
          have hcfalse : ∀ i ∈ List.range' (64 * w) (min (64 * w + 64) n - 64 * w),
              c i = false := by
            intro i hi
            rw [List.mem_range'_1] at hi
            rw [hc i]
            have hcur : bmGet xv i = false := by
              have := wordAllZeros_get xv w hB2 (i - 64 * w) (by omega)
              have heq : 64 * w + (i - 64 * w) = i := by omega
              rwa [heq] at this
            rw [hcur]
            rfl
          rw [mstep_chunk_all_false c v _ sW hcfalse]
          rw [setWordBits_eq_foldl]
          have hsplit64 : List.range' (64 * w) 64
              = List.range' (64 * w) (min (64 * w + 64) n - 64 * w)
                ++ List.range' (64 * w + (min (64 * w + 64) n - 64 * w))
                    (64 - (min (64 * w + 64) n - 64 * w)) := by
            rw [List.range'_append_1]
            have : 64 - (min (64 * w + 64) n - 64 * w) + (min (64 * w + 64) n - 64 * w)
                = 64 := by omega
            rw [this]
          rw [hsplit64, List.foldl_append]
          rw [foldl_set_oob]
          intro i hi
          rw [List.mem_range'_1] at hi
          rw [foldl_setf_length, hsW2len]
          -- if the tail range is nonempty then min (...) n = n
          omega
        · rw [if_neg hB2]
          exact hcomb (min (64 * w + 64) n - 64 * w) rfl



/-- C6: for every input, validity bitmap and lag, `dlog_wordwise` produces
exactly the same output validity bitmap as `dlog_masked`, and the same output
data at every position whose output validity bit is set (for in-range lags
the two final states are in fact identical). -/
theorem wordwise_matches_masked (lnf : ℚ → Option ℚ) (x : List Flt)
    (xv : List Bool) (lag : Nat) (out : List Flt) (ov : List Bool)
    (hxv : xv.length = x.length) (hout : out.length = x.length)
    (hov : ov.length = x.length) :
    ((dlog_wordwise lnf x xv lag out ov).2
      = (dlog_masked lnf x xv lag out ov).2) ∧
    (∀ p, bmGet (dlog_wordwise lnf x xv lag out ov).2 p = true →
      (dlog_wordwise lnf x xv lag out ov).1.getD p none
        = (dlog_masked lnf x xv lag out ov).1.getD p none) := by
  by_cases hdeg : lag = 0 ∨ x.length ≤ lag
  · constructor
    · rw [dlog_masked_degen lnf x xv lag out ov hdeg]
      simp only [dlog_wordwise, if_pos hdeg]
    · intro p hvalid
      simp only [dlog_wordwise, if_pos hdeg, bmGet, map_const_getD] at hvalid
      exact absurd hvalid (by simp)
  · have hs1len : ((List.range lag).foldl
        (mstep (fun _ => false)
          (fun i => fsub (fln lnf (x.getD i none)) (fln lnf (x.getD (i - lag) none))))
        (out, ov)).2.length = x.length := by
      rw [(foldl_mstep_length _ _ _ _).2]
      exact hov
    have hstates : dlog_wordwise lnf x xv lag out ov
        = dlog_masked lnf x xv lag out ov := by
      simp only [dlog_wordwise, dlog_masked, if_neg hdeg]
      rw [wbody_fold_inv xv lag x.length _ _ (fun i => rfl) hxv (by omega)
        (by omega) _ hs1len ((x.length + 63) / 64) (le_refl _)]
      have hend : max lag (min (64 * ((x.length + 63) / 64)) x.length) - lag
          = x.length - lag := by omega
      rw [hend]
    rw [hstates]
    exact ⟨rfl, fun p _ => rfl⟩

/-- Witness for `wordwise_matches_masked` on a concrete mixed-validity
length-2 input. -/
theorem wordwise_matches_masked_witness :
    ([true, false] : List Bool).length = ([some 1, some 2] : List Flt).length ∧
    (dlog_wordwise (fun q => some q) [some 1, some 2] [true, false] 1
        [none, none] [false, false]).2
      = (dlog_masked (fun q => some q) [some 1, some 2] [true, false] 1
          [none, none] [false, false]).2 :=
  ⟨by decide,
    (wordwise_matches_masked (fun q => some q) [some 1, some 2] [true, false] 1
      [none, none] [false, false] (by decide) (by decide) (by decide)).1⟩



/-! ### Rolling moments (src/builtins/rolling_moments.rs) -/

/-- Raw power-sum `S1` over window positions `[lo, lo+len)`, skipping NaN
entries as the source loop does. -/
def winSum (x : List Flt) (lo len : Nat) : ℚ :=
  (List.range' lo len).foldl (fun s j =>
    match x.getD j none with
    | some val => s + val
    | none => s) 0

/-- Count of non-NaN entries over window positions `[lo, lo+len)`. -/
def winCount (x : List Flt) (lo len : Nat) : Nat :=
  (List.range' lo len).foldl (fun cn j =>
    match x.getD j none with
    | some _ => cn + 1
    | none => cn) 0

/-- `rolling_moments_past_only_f64` with `mask = {mean}` and no validity
bitmap (the `rolling_moments_all_valid` path): every output starts NaN;
positions `i < window` are skipped; at `i ≥ window` the strictly past window
`[i-window, i-1]` is summed and counted, and `S1/count` is written when
`count ≥ min_periods` (default `window`). -/
def rolling_mean_past (x : List Flt) (window : Nat) (minPeriods : Option Nat) :
    List Flt :=
  let n := x.length
  let mp := minPeriods.getD window
  (List.range n).foldl (fun out i =>
    if i < window then out
    else if mp ≤ winCount x (i - window) window then
      out.set i (some (winSum x (i - window) window
        / (winCount x (i - window) window : ℚ)))
    else out) (List.replicate n none)



lemma getD_replicate (n p : Nat) (a : α) : (List.replicate n a).getD p a = a := by
  rcases Nat.lt_or_ge p n with h | h
  · rw [List.getD_eq_getElem _ _ (by simpa using h)]
    simp
  · exact List.getD_eq_default _ _ (by simpa using h)

lemma foldl_ifset_getD (L : List Nat) (C : Nat → Prop) [DecidablePred C]
    (V : Nat → α) (l : List α) (p : Nat) (d : α) :
    (L.foldl (fun out i => if C i then out.set i (V i) else out) l).getD p d
      = if p ∈ L ∧ C p ∧ p < l.length then V p else l.getD p d := by
  induction L generalizing l with
  | nil => simp
  | cons i L ih =>
    simp only [List.foldl_cons]
    by_cases hci : C i
    · rw [if_pos hci, ih (l.set i (V i)), List.length_set, getD_set]
      by_cases hpi : p = i
      · subst hpi
        have hA : (p ∈ p :: L ∧ C p ∧ p < l.length) ↔ (C p ∧ p < l.length) := by
          simp [List.mem_cons]
        have hB : (p = p ∧ p < l.length) ↔ (p < l.length) := by simp
        simp only [hA, hB]
        by_cases hq : p < l.length
        · by_cases hc : p ∈ L ∧ C p ∧ p < l.length <;> simp [hc, hq, hci]
        · have hc : ¬(p ∈ L ∧ C p ∧ p < l.length) := fun h => hq h.2.2
          simp [hc, hq]
      · have hB : ¬(p = i ∧ i < l.length) := fun hh => hpi hh.1
        rw [if_neg hB]
        have hA : (p ∈ i :: L ∧ C p ∧ p < l.length) ↔ (p ∈ L ∧ C p ∧ p < l.length) := by
          simp [List.mem_cons, hpi]
        simp only [hA]
    · rw [if_neg hci, ih l]
      by_cases hpi : p = i
      · subst hpi
        have hA : (p ∈ p :: L ∧ C p ∧ p < l.length) ↔ (p ∈ L ∧ C p ∧ p < l.length) := by
          constructor
          · rintro ⟨_, h2, h3⟩
            exact absurd h2 hci
          · rintro ⟨h1, h2, h3⟩
            exact ⟨List.mem_cons_of_mem _ h1, h2, h3⟩
        simp only [hA]
      · have hA : (p ∈ i :: L ∧ C p ∧ p < l.length) ↔ (p ∈ L ∧ C p ∧ p < l.length) := by
          simp [List.mem_cons, hpi]
        simp only [hA]

lemma getD_map_some (x : List ℚ) (j : Nat) (h : j < x.length) :
    (x.map some).getD j none = some (x.getD j 0) := by
  rw [List.getD_eq_getElem _ _ (by simpa using h), List.getD_eq_getElem _ _ h]
  simp

lemma winCount_map_some (x : List ℚ) :
    ∀ (len lo : Nat), lo + len ≤ x.length →
      winCount (x.map some) lo len = len := by
  intro len
  induction len with
  | zero => intro lo _; rfl
  | succ m ih =>
    intro lo h
    rw [winCount, List.range'_1_concat, List.foldl_append, List.foldl_cons,
      List.foldl_nil, ← winCount, ih lo (by omega),
      getD_map_some x (lo + m) (by omega)]

lemma winSum_map_some (x : List ℚ) :
    ∀ (len lo : Nat), lo + len ≤ x.length →
      winSum (x.map some) lo len
        = ((List.range' lo len).map (fun j => x.getD j 0)).sum := by
  intro len
  induction len with
  | zero => intro lo _; rfl
  | succ m ih =>
    intro lo h
    rw [winSum, List.range'_1_concat, List.foldl_append, List.foldl_cons,
      List.foldl_nil, ← winSum, ih lo (by omega),
      getD_map_some x (lo + m) (by omega)]
    simp

/-- C8: with mask `{mean}`, no validity bitmap and default `min_periods`, on
NaN-free input the rolling-moments kernel leaves positions `i < window` NaN
and writes at `i ≥ window` the arithmetic mean of the strictly past window
`x[i-window .. i-1]`; in particular on `[1,2,3,4,5]` with window 3 the output
is `[NaN, NaN, NaN, 2, 3]`. -/
theorem rolling_mean_past_only_spec (x : List ℚ) (window : Nat)
    (hw : 1 ≤ window) :
    (∀ i, i < window →
      (rolling_mean_past (x.map some) window none).getD i none = none) ∧
    (∀ i, window ≤ i → i < x.length →
      (rolling_mean_past (x.map some) window none).getD i none
        = some ((((List.range' (i - window) window).map (fun j => x.getD j 0)).sum)
            / (window : ℚ))) ∧
    rolling_mean_past (([1, 2, 3, 4, 5] : List ℚ).map some) 3 none
      = [none, none, none, some 2, some 3] := by
  have hbody : (fun (out : List Flt) (i : Nat) =>
      if i < window then out
      else if (none : Option Nat).getD window
          ≤ winCount (x.map some) (i - window) window then
        out.set i (some (winSum (x.map some) (i - window) window
          / (winCount (x.map some) (i - window) window : ℚ)))
      else out)
    = (fun out i =>
        if (¬ i < window) ∧ (none : Option Nat).getD window
            ≤ winCount (x.map some) (i - window) window then
          out.set i (some (winSum (x.map some) (i - window) window
            / (winCount (x.map some) (i - window) window : ℚ)))
        else out) := by
    funext out i
    by_cases h1 : i < window
    · simp [h1]
    · by_cases h2 : (none : Option Nat).getD window
          ≤ winCount (x.map some) (i - window) window <;> simp [h1, h2]
  refine ⟨?_, ?_, ?_⟩
  · intro i hi
    simp only [rolling_mean_past, hbody]
    rw [foldl_ifset_getD]
    rw [if_neg (by tauto)]
    exact getD_replicate _ _ _
  · intro i hi hilen
    have hcnt : winCount (x.map some) (i - window) window = window :=
      winCount_map_some x window (i - window) (by omega)
    simp only [rolling_mean_past, hbody]
    rw [foldl_ifset_getD]
    rw [if_pos ⟨by simp [List.mem_range]; omega, ⟨by omega, by simp [hcnt]⟩,
      by simp [List.length_replicate, List.length_map]; omega⟩]
    rw [hcnt, winSum_map_some x window (i - window) (by omega)]
  · have h03 : List.range' 0 3 = [0, 1, 2] := rfl
    have h13 : List.range' 1 3 = [1, 2, 3] := rfl
    norm_num [rolling_mean_past, winSum, winCount, List.range_succ, h03, h13,
      List.foldl_cons, List.foldl_nil]
    rfl



/-- Witness for `rolling_mean_past_only_spec` at `[1,2,3,4,5]`, window 3,
position 3. -/
theorem rolling_mean_past_only_spec_witness :
    (1 : Nat) ≤ 3 ∧ (3 : Nat) ≤ 3 ∧
    (rolling_mean_past (([1, 2, 3, 4, 5] : List ℚ).map some) 3 none).getD 3 none
      = some ((((List.range' (3 - 3) 3).map
          (fun j => ([1, 2, 3, 4, 5] : List ℚ).getD j 0)).sum) / ((3 : Nat) : ℚ)) :=
  ⟨by decide, by decide,
    (rolling_mean_past_only_spec [1, 2, 3, 4, 5] 3 (by decide)).2.1 3
      (by decide) (by decide)⟩



/-! ### Scratch allocator (src/builtins/scratch.rs)

A `Vec<f64>` is a pair of contents and capacity; "uninitialized" elements
exposed by `set_len` are modelled as NaN (their value is unspecified and no
claim depends on it). The pool list head is the top of the `Vec` stack that
`pop` removes from and `push` adds to. -/

/-- A `Vec<f64>`: length is `data.length`, capacity may exceed it. -/
structure FVec where
  data : List Flt
  cap : Nat
deriving DecidableEq

/-- The `Scratch` pool. -/
structure Scratch where
  f64_bufs : List FVec
  bitmap_bufs : List (List Bool)
deriving DecidableEq

/-- `Scratch::get_f64(len)`: pop a buffer; if its capacity suffices, clear and
resize it to `len` zeros; otherwise drop it and allocate `vec![0.0; len]`. -/
def Scratch.get_f64 (s : Scratch) (len : Nat) : FVec × Scratch :=
  match s.f64_bufs with
  | [] => (⟨List.replicate len (some 0), len⟩, s)
  | buf :: rest =>
    if len ≤ buf.cap then
      (⟨List.replicate len (some 0), buf.cap⟩, ⟨rest, s.bitmap_bufs⟩)
    else
      (⟨List.replicate len (some 0), len⟩, ⟨rest, s.bitmap_bufs⟩)

/-- `Scratch::get_f64_uninit(len)`: pop a buffer; if its capacity suffices,
`set_len(len)` without zeroing (old contents up to `len`, then
uninitialized); otherwise drop it and return `Vec::with_capacity(len)`, whose
length is 0. -/
def Scratch.get_f64_uninit (s : Scratch) (len : Nat) : FVec × Scratch :=
  match s.f64_bufs with
  | [] => (⟨[], len⟩, s)
  | buf :: rest =>
    if len ≤ buf.cap then
      (⟨(buf.data ++ List.replicate (len - buf.data.length) none).take len,
        buf.cap⟩, ⟨rest, s.bitmap_bufs⟩)
    else
      (⟨[], len⟩, ⟨rest, s.bitmap_bufs⟩)

/-- `Scratch::return_f64`. -/
def Scratch.return_f64 (s : Scratch) (buf : FVec) : Scratch :=
  ⟨buf :: s.f64_bufs, s.bitmap_bufs⟩

/-- C9 counterexample: with an empty pool, `get_f64_uninit(5)` returns
`Vec::with_capacity(5)`, whose length is 0, not 5. -/
theorem get_f64_uninit_empty_pool_not_len :
    (Scratch.get_f64_uninit ⟨[], []⟩ 5).1.data.length = 0 ∧
    (Scratch.get_f64_uninit ⟨[], []⟩ 5).1.data.length ≠ 5 := by
  constructor
  · rfl
  · decide

/-- C9 (amended): `get_f64(len)` always returns `len` zeros; `get_f64_uninit(len)`
returns a buffer of length `len` only when the popped pooled buffer has
capacity at least `len` — on an empty pool or insufficient capacity it
returns an empty buffer of capacity `len` (callers must set the length); a
pooled buffer is reused only when its capacity is at least `len`, otherwise a
fresh buffer of capacity `len` is produced. -/
theorem scratch_get_f64_spec :
    (∀ (s : Scratch) (len : Nat),
      (s.get_f64 len).1.data = List.replicate len (some 0)) ∧
    (∀ (s : Scratch) (len : Nat) (buf : FVec) (rest : List FVec),
      s.f64_bufs = buf :: rest → len ≤ buf.cap →
      (s.get_f64_uninit len).1.data.length = len ∧
      (s.get_f64_uninit len).1.cap = buf.cap) ∧
    (∀ (s : Scratch) (len : Nat),
      s.f64_bufs = [] →
      (s.get_f64_uninit len).1.data = [] ∧ (s.get_f64_uninit len).1.cap = len) ∧
    (∀ (s : Scratch) (len : Nat) (buf : FVec) (rest : List FVec),
      s.f64_bufs = buf :: rest → buf.cap < len →
      (s.get_f64_uninit len).1.data = [] ∧ (s.get_f64_uninit len).1.cap = len) ∧
    (∀ (s : Scratch) (len : Nat) (buf : FVec) (rest : List FVec),
      s.f64_bufs = buf :: rest → buf.cap < len →
      (s.get_f64 len).1.cap = len) := by
  refine ⟨?_, ?_, ?_, ?_, ?_⟩
  · intro s len
    rcases s with ⟨bufs, bms⟩
    cases bufs with
    | nil => rfl
    | cons buf rest =>
      simp only [Scratch.get_f64]
      by_cases h : len ≤ buf.cap <;> simp [h]
  · intro s len buf rest hpool hcap
    rcases s with ⟨bufs, bms⟩
    simp only at hpool
    subst hpool
    simp only [Scratch.get_f64_uninit, if_pos hcap]
    constructor
    · simp only [List.length_take, List.length_append, List.length_replicate]
      omega
    · trivial
  · intro s len hpool
    rcases s with ⟨bufs, bms⟩
    simp only at hpool
    subst hpool
    exact ⟨rfl, rfl⟩
  · intro s len buf rest hpool hcap
    rcases s with ⟨bufs, bms⟩
    simp only at hpool
    subst hpool
    have hnle : ¬ len ≤ buf.cap := by omega
    simp [Scratch.get_f64_uninit, if_neg hnle]
  · intro s len buf rest hpool hcap
    rcases s with ⟨bufs, bms⟩
    simp only at hpool
    subst hpool
    have hnle : ¬ len ≤ buf.cap := by omega
    simp only [Scratch.get_f64, if_neg hnle]

/-- Witness for `scratch_get_f64_spec` on a pool holding one capacity-1
buffer. -/
theorem scratch_get_f64_spec_witness :
    (Scratch.get_f64 ⟨[⟨[some 5], 1⟩], []⟩ 3).1.data
      = List.replicate 3 (some 0) ∧
    ((⟨[⟨[some 5], 1⟩], []⟩ : Scratch).f64_bufs = [⟨[some 5], 1⟩] ∧
      (⟨[some 5], 1⟩ : FVec).cap < 3 ∧
      (Scratch.get_f64_uninit ⟨[⟨[some 5], 1⟩], []⟩ 3).1.data = [] ∧
      (Scratch.get_f64_uninit ⟨[⟨[some 5], 1⟩], []⟩ 3).1.cap = 3) :=
  ⟨scratch_get_f64_spec.1 ⟨[⟨[some 5], 1⟩], []⟩ 3,
    rfl, by decide,
    (scratch_get_f64_spec.2.2.2.1 ⟨[⟨[some 5], 1⟩], []⟩ 3 ⟨[some 5], 1⟩ []
      rfl (by decide)).1,
    (scratch_get_f64_spec.2.2.2.1 ⟨[⟨[some 5], 1⟩], []⟩ 3 ⟨[some 5], 1⟩ []
      rfl (by decide)).2⟩



/-! ### Pipeline data model and executor (src/pipeline/*, src/table/column.rs) -/

/-- `Column`: typed columnar payloads (temporal payloads as integers). -/
inductive Column where
  | F64 (data : List Flt)
  | Date (data : List Int)
  | Timestamp (data : List Int)
  | Ts (data : List Int)
deriving DecidableEq

/-- `Table`: named, same-length columns. -/
structure Table where
  names : List String
  columns : List Column
deriving DecidableEq

/-- `OpId` from pipeline/ir.rs. -/
inductive OpId where
  | Dlog | W5 | Cs1 | AddConst | SubConst | MulConst | DivConst | Sum | Mean
  | Generic (s : String)
deriving DecidableEq

/-- An operation within a segment. -/
structure OpStep where
  name : OpId
  args : List Flt
deriving DecidableEq

/-- `SegmentKind` from execution_plan.rs. -/
inductive SegmentKind where
  | Colwise | Rowwise | Each | Real | Scalar | Vector
deriving DecidableEq

/-- A segment: kind, starting orientation, operations. -/
structure Segment where
  kind : SegmentKind
  start_ori : Ori
  ops : List OpStep
deriving DecidableEq

/-- An execution plan: ordered segments. -/
structure ExecutionPlan where
  segments : List Segment
deriving DecidableEq

/-- `is_fusable_op`: the fusable whitelist. -/
def is_fusable_op : OpId → Bool
  | OpId.Dlog => true
  | OpId.AddConst => true
  | OpId.SubConst => true
  | OpId.MulConst => true
  | OpId.DivConst => true
  | OpId.W5 => true
  | OpId.Cs1 => true
  | _ => false

/-- `Segment::is_fusable`: only Colwise segments whose ops are all fusable. -/
def Segment.is_fusable (seg : Segment) : Bool :=
  if seg.kind ≠ SegmentKind.Colwise then false
  else seg.ops.all (fun op => is_fusable_op op.name)

/-- `FusedOp` from colwise_fused.rs. -/
inductive FusedOp where
  | Dlog (period : Nat)
  | AddConst (c : Flt)
  | SubConst (c : Flt)
  | MulConst (c : Flt)
  | DivConst (c : Flt)
  | WMean5
  | Cumsum
deriving DecidableEq

/-- The `as usize` cast of an `f64`: NaN and non-positive values go to 0,
positive values truncate. -/
def fltToUsize : Flt → Nat
  | some q => if q ≤ 0 then 0 else q.floor.toNat
  | none => 0

/-- The per-op arm of `ColwiseKernel::from_segment`, with the source's
`unwrap_or` argument defaults. -/
def toFusedOp (op : OpStep) : Option FusedOp :=
  match op.name with
  | OpId.Dlog => some (FusedOp.Dlog (fltToUsize (op.args.getD 0 (some 1))))
  | OpId.AddConst => some (FusedOp.AddConst (op.args.getD 0 (some 0)))
  | OpId.SubConst => some (FusedOp.SubConst (op.args.getD 0 (some 0)))
  | OpId.MulConst => some (FusedOp.MulConst (op.args.getD 0 (some 1)))
  | OpId.DivConst => some (FusedOp.DivConst (op.args.getD 0 (some 1)))
  | OpId.W5 => some FusedOp.WMean5
  | OpId.Cs1 => some FusedOp.Cumsum
  | _ => none

/-- `ColwiseKernel` as its op list. -/
structure ColwiseKernel where
  ops : List FusedOp
deriving DecidableEq

/-- `ColwiseKernel::from_segment`: `None` unless the segment is fusable. -/
def ColwiseKernel.from_segment (seg : Segment) : Option ColwiseKernel :=
  if seg.is_fusable = false then none
  else (seg.ops.mapM toFusedOp).map (fun ops => ⟨ops⟩)

/-- NaN-propagating division (`x / c`; division by zero is outside every
claim considered here). -/
def fdiv : Flt → Flt → Flt
  | some x, some y => some (x / y)
  | _, _ => none

/-- `ColwiseKernel::apply_op` on one column of data. -/
def apply_op (lnf : ℚ → Option ℚ) (op : FusedOp) (data : List Flt) : List Flt :=
  match op with
  | FusedOp.Dlog period =>
    (List.range data.length).map (fun i =>
      if i < period then none
      else
        match data.getD i none, data.getD (i - period) none with
        | some curr, some prev =>
          if curr ≤ 0 ∨ prev ≤ 0 then none
          else fsub (fln lnf (some curr)) (fln lnf (some prev))
        | _, _ => none)
  | FusedOp.AddConst c => data.map (fun v => fadd v c)
  | FusedOp.SubConst c => data.map (fun v => fsub v c)
  | FusedOp.MulConst c => data.map (fun v => fmul v c)
  | FusedOp.DivConst c => data.map (fun v => fdiv v c)
  | FusedOp.WMean5 =>
    (List.range data.length).map (fun i =>
      if i < 4 then none
      else
        let s := (List.range 5).foldl (fun acc j =>
          match data.getD (i - j) none with
          | some val => acc + val
          | none => acc) (0 : ℚ)
        let cnt := (List.range 5).foldl (fun acc j =>
          match data.getD (i - j) none with
          | some _ => acc + 1
          | none => acc) (0 : Nat)
        if 0 < cnt then some (s / (cnt : ℚ)) else none)
  | FusedOp.Cumsum =>
    (data.foldl (fun (acc : ℚ × List Flt) v =>
      match v with
      | none => (acc.1, acc.2 ++ [none])
      | some q => (acc.1 + q, acc.2 ++ [some (acc.1 + q)])) (0, [])).2

/-- `ColwiseKernel::execute_column`: thread the column through the op chain. -/
def execute_column (lnf : ℚ → Option ℚ) (k : ColwiseKernel) (data : List Flt) :
    List Flt :=
  if data.length = 0 then []
  else k.ops.foldl (fun acc op => apply_op lnf op acc) data

/-- `ColwiseKernel::execute`: rewrite each F64 column, pass temporal columns
through unchanged. -/
def kernel_execute (lnf : ℚ → Option ℚ) (k : ColwiseKernel) (t : Table) : Table :=
  ⟨t.names, t.columns.map (fun col =>
    match col with
    | Column.F64 data => Column.F64 (execute_column lnf k data)
    | other => other)⟩

/-- `ExecutionStats`. -/
structure ExecutionStats where
  segments_executed : Nat
  segments_fused : Nat
  segments_unfused : Nat
  allocations : Nat
deriving DecidableEq

/-- Componentwise order on stats. -/
def statsLe (a b : ExecutionStats) : Prop :=
  a.segments_executed ≤ b.segments_executed ∧
  a.segments_fused ≤ b.segments_fused ∧
  a.segments_unfused ≤ b.segments_unfused ∧
  a.allocations ≤ b.allocations

/-- `ExecutionValue`. -/
inductive ExecutionValue where
  | Table (t : Table)
  | Column (c : Column)
  | Scalar (q : Flt)
deriving DecidableEq

/-- `ExecutionValue::as_table`. -/
def as_table : ExecutionValue → Except String Table
  | ExecutionValue.Table t => Except.ok t
  | _ => Except.error "Expected Table value"

/-- `ExecutionResult`: the produced value plus a clone of the stats. -/
structure ExecutionResult where
  value : ExecutionValue
  stats : ExecutionStats
deriving DecidableEq

/-- `Executor::execute_segment` (with `execute_colwise_segment`,
`execute_unfused_colwise`, `execute_rowwise_segment` and
`execute_other_segment` inlined), acting on the executor's stats. -/
def execute_segment (lnf : ℚ → Option ℚ) (st : ExecutionStats) (seg : Segment)
    (input : ExecutionValue) : ExecutionStats × Except String ExecutionValue :=
  match seg.kind with
  | SegmentKind.Colwise =>
    match as_table input with
    | Except.error e => (st, Except.error e)
    | Except.ok t =>
      match ColwiseKernel.from_segment seg with
      | some k =>
        (⟨st.segments_executed, st.segments_fused + 1, st.segments_unfused,
          st.allocations + t.columns.length⟩,
         Except.ok (ExecutionValue.Table (kernel_execute lnf k t)))
      | none =>
        (⟨st.segments_executed, st.segments_fused, st.segments_unfused + 1,
          st.allocations⟩,
         Except.error "Unfused colwise execution not yet implemented")
  | SegmentKind.Rowwise =>
    match as_table input with
    | Except.error e => (st, Except.error e)
    | Except.ok t =>
      (⟨st.segments_executed, st.segments_fused, st.segments_unfused + 1,
        st.allocations⟩, Except.ok (ExecutionValue.Table t))
  | SegmentKind.Each =>
    match as_table input with
    | Except.error e => (st, Except.error e)
    | Except.ok t =>
      (⟨st.segments_executed, st.segments_fused, st.segments_unfused + 1,
        st.allocations⟩, Except.ok (ExecutionValue.Table t))
  | SegmentKind.Real =>
    match as_table input with
    | Except.error e => (st, Except.error e)
    | Except.ok t =>
      (⟨st.segments_executed, st.segments_fused, st.segments_unfused + 1,
        st.allocations⟩, Except.ok (ExecutionValue.Table t))
  | SegmentKind.Scalar =>
    (st, Except.error "Scalar/Vector segments not supported in table pipelines")
  | SegmentKind.Vector =>
    (st, Except.error "Scalar/Vector segments not supported in table pipelines")

/-- The segment loop of `Executor::execute`: run each segment, incrementing
`segments_executed` after each success, propagating the first error. -/
def executeSegs (lnf : ℚ → Option ℚ) :
    List Segment → ExecutionStats → ExecutionValue →
    ExecutionStats × Except String ExecutionValue
  | [], st, v => (st, Except.ok v)
  | seg :: rest, st, v =>
    match execute_segment lnf st seg v with
    | (st', Except.ok v') =>
      executeSegs lnf rest
        ⟨st'.segments_executed + 1, st'.segments_fused, st'.segments_unfused,
          st'.allocations⟩ v'
    | (st', Except.error e) => (st', Except.error e)

/-- `Executor::execute`: run the plan's segments from the executor's current
stats; on success the result carries a clone of the accumulated stats. -/
def execute (lnf : ℚ → Option ℚ) (st : ExecutionStats) (plan : ExecutionPlan)
    (input : Table) : ExecutionStats × Except String ExecutionResult :=
  match executeSegs lnf plan.segments st (ExecutionValue.Table input) with
  | (st', Except.ok v) => (st', Except.ok ⟨v, st'⟩)
  | (st', Except.error e) => (st', Except.error e)



/-- C7 counterexample: executing a plan with one Rowwise segment returns
`Ok` with the input table unchanged (a silent identity pass-through counted
as an unfused segment), not a "not yet supported" error. -/
theorem rowwise_segment_silent_identity :
    execute (fun _ => none) ⟨0, 0, 0, 0⟩
        ⟨[⟨SegmentKind.Rowwise, ORI_Z, []⟩]⟩ ⟨["a"], [Column.F64 [some 1]]⟩
      = (⟨1, 0, 1, 0⟩,
         Except.ok ⟨ExecutionValue.Table ⟨["a"], [Column.F64 [some 1]]⟩,
           ⟨1, 0, 1, 0⟩⟩) := by
  rfl

/-- C7 (amended): only the unfused-Colwise fallback reports an explicit
"not yet implemented" error; Rowwise, Each and Real segments return the
input table unchanged (incrementing the unfused counter) instead of an
error. -/
theorem unimplemented_paths_amended :
    (∀ (lnf : ℚ → Option ℚ) (st : ExecutionStats) (seg : Segment) (t : Table),
      (seg.kind = SegmentKind.Rowwise ∨ seg.kind = SegmentKind.Each ∨
        seg.kind = SegmentKind.Real) →
      execute_segment lnf st seg (ExecutionValue.Table t)
        = (⟨st.segments_executed, st.segments_fused, st.segments_unfused + 1,
            st.allocations⟩,
           Except.ok (ExecutionValue.Table t))) ∧
    (∀ (lnf : ℚ → Option ℚ) (st : ExecutionStats) (seg : Segment) (t : Table),
      seg.kind = SegmentKind.Colwise →
      ColwiseKernel.from_segment seg = none →
      execute_segment lnf st seg (ExecutionValue.Table t)
        = (⟨st.segments_executed, st.segments_fused, st.segments_unfused + 1,
            st.allocations⟩,
           Except.error "Unfused colwise execution not yet implemented")) := by
  constructor
  · intro lnf st seg t hk
    rcases hk with h | h | h <;> simp [execute_segment, h, as_table]
  · intro lnf st seg t hk hns
    simp [execute_segment, hk, as_table, hns]

/-- Witness for `unimplemented_paths_amended` on a concrete Rowwise
segment. -/
theorem unimplemented_paths_amended_witness :
    ((⟨SegmentKind.Rowwise, ORI_Z, []⟩ : Segment).kind = SegmentKind.Rowwise ∨
      (⟨SegmentKind.Rowwise, ORI_Z, []⟩ : Segment).kind = SegmentKind.Each ∨
      (⟨SegmentKind.Rowwise, ORI_Z, []⟩ : Segment).kind = SegmentKind.Real) ∧
    execute_segment (fun _ => none) ⟨0, 0, 0, 0⟩
        ⟨SegmentKind.Rowwise, ORI_Z, []⟩
        (ExecutionValue.Table ⟨["a"], [Column.F64 [some 1]]⟩)
      = (⟨0, 0, 1, 0⟩,
         Except.ok (ExecutionValue.Table ⟨["a"], [Column.F64 [some 1]]⟩)) :=
  ⟨Or.inl rfl,
    unimplemented_paths_amended.1 (fun _ => none) ⟨0, 0, 0, 0⟩
      ⟨SegmentKind.Rowwise, ORI_Z, []⟩ ⟨["a"], [Column.F64 [some 1]]⟩
      (Or.inl rfl)⟩

lemma execute_segment_mono (lnf : ℚ → Option ℚ) (st : ExecutionStats)
    (seg : Segment) (v : ExecutionValue) :
    statsLe st (execute_segment lnf st seg v).1 := by
  have hrefl : statsLe st st := ⟨le_refl _, le_refl _, le_refl _, le_refl _⟩
  rcases seg with ⟨kind, ori, ops⟩
  cases kind with
  | Colwise =>
    cases v with
    | Table t =>
      simp only [execute_segment, as_table]
      rcases hfs : ColwiseKernel.from_segment ⟨SegmentKind.Colwise, ori, ops⟩
        with _ | k <;> simp only [hfs] <;>
        refine ⟨?_, ?_, ?_, ?_⟩ <;> dsimp only <;> omega
    | Column c => exact hrefl
    | Scalar q => exact hrefl
  | Rowwise =>
    cases v with
    | Table t =>
      refine ⟨?_, ?_, ?_, ?_⟩ <;> simp only [execute_segment, as_table] <;>
        omega
    | Column c => exact hrefl
    | Scalar q => exact hrefl
  | Each =>
    cases v with
    | Table t =>
      refine ⟨?_, ?_, ?_, ?_⟩ <;> simp only [execute_segment, as_table] <;>
        omega
    | Column c => exact hrefl
    | Scalar q => exact hrefl
  | Real =>
    cases v with
    | Table t =>
      refine ⟨?_, ?_, ?_, ?_⟩ <;> simp only [execute_segment, as_table] <;>
        omega
    | Column c => exact hrefl
    | Scalar q => exact hrefl
  | Scalar => exact hrefl
  | Vector => exact hrefl

lemma executeSegs_mono (lnf : ℚ → Option ℚ) :
    ∀ (L : List Segment) (st : ExecutionStats) (v : ExecutionValue),
      statsLe st (executeSegs lnf L st v).1 := by
  intro L
  induction L with
  | nil => intro st v; exact ⟨le_refl _, le_refl _, le_refl _, le_refl _⟩
  | cons seg rest ih =>
    intro st v
    have hmono := execute_segment_mono lnf st seg v
    rcases hseg : execute_segment lnf st seg v with ⟨st', res⟩
    rw [hseg] at hmono
    cases res with
    | ok v' =>
      simp only [executeSegs, hseg]
      have h2 := ih ⟨st'.segments_executed + 1, st'.segments_fused,
        st'.segments_unfused, st'.allocations⟩ v'
      rcases hmono with ⟨a1, a2, a3, a4⟩
      rcases h2 with ⟨b1, b2, b3, b4⟩
      dsimp only at a1 a2 a3 a4 b1 b2 b3 b4
      exact ⟨by omega, by omega, by omega, by omega⟩
    | error e =>
      simp only [executeSegs, hseg]
      exact hmono

lemma execute_ok_stats (lnf : ℚ → Option ℚ) (st : ExecutionStats)
    (p : ExecutionPlan) (t : Table) (st' : ExecutionStats) (r : ExecutionResult)
    (h : execute lnf st p t = (st', Except.ok r)) :
    r.stats = st' ∧ statsLe st st' := by
  have hmono := executeSegs_mono lnf p.segments st (ExecutionValue.Table t)
  rcases hE : executeSegs lnf p.segments st (ExecutionValue.Table t) with ⟨sa, res⟩
  rw [hE] at hmono
  rw [execute, hE] at h
  cases res with
  | ok v =>
    simp only [Prod.mk.injEq, Except.ok.injEq] at h
    rcases h with ⟨h1, h2⟩
    subst h1
    rw [← h2]
    exact ⟨rfl, hmono⟩
  | error e => simp at h

/-- C10: executor statistics are cumulative across calls: `execute` never
resets the counters, so when two plans are run in sequence on the same
executor, every counter reported by the second `ExecutionResult` is at least
the corresponding counter reported by the first. -/
theorem executor_stats_cumulative (lnf : ℚ → Option ℚ) (st0 : ExecutionStats)
    (p1 p2 : ExecutionPlan) (t1 t2 : Table) (st1 st2 : ExecutionStats)
    (r1 r2 : ExecutionResult)
    (h1 : execute lnf st0 p1 t1 = (st1, Except.ok r1))
    (h2 : execute lnf st1 p2 t2 = (st2, Except.ok r2)) :
    statsLe r1.stats r2.stats := by
  rcases execute_ok_stats lnf st0 p1 t1 st1 r1 h1 with ⟨hr1, _⟩
  rcases execute_ok_stats lnf st1 p2 t2 st2 r2 h2 with ⟨hr2, hle⟩
  rw [hr1, hr2]
  exact hle

/-- Witness for `executor_stats_cumulative`: the same one-segment Rowwise
plan run twice in sequence. -/
theorem executor_stats_cumulative_witness :
    execute (fun _ => none) ⟨0, 0, 0, 0⟩
        ⟨[⟨SegmentKind.Rowwise, ORI_Z, []⟩]⟩ ⟨["a"], [Column.F64 [some 1]]⟩
      = (⟨1, 0, 1, 0⟩,
         Except.ok ⟨ExecutionValue.Table ⟨["a"], [Column.F64 [some 1]]⟩,
           ⟨1, 0, 1, 0⟩⟩) ∧
    statsLe
      (⟨ExecutionValue.Table ⟨["a"], [Column.F64 [some 1]]⟩,
        ⟨1, 0, 1, 0⟩⟩ : ExecutionResult).stats
      (⟨ExecutionValue.Table ⟨["a"], [Column.F64 [some 1]]⟩,
        ⟨2, 0, 2, 0⟩⟩ : ExecutionResult).stats :=
  ⟨rfl,
    executor_stats_cumulative (fun _ => none) ⟨0, 0, 0, 0⟩
      ⟨[⟨SegmentKind.Rowwise, ORI_Z, []⟩]⟩ ⟨[⟨SegmentKind.Rowwise, ORI_Z, []⟩]⟩
      ⟨["a"], [Column.F64 [some 1]]⟩ ⟨["a"], [Column.F64 [some 1]]⟩
      ⟨1, 0, 1, 0⟩ ⟨2, 0, 2, 0⟩
      ⟨ExecutionValue.Table ⟨["a"], [Column.F64 [some 1]]⟩, ⟨1, 0, 1, 0⟩⟩
      ⟨ExecutionValue.Table ⟨["a"], [Column.F64 [some 1]]⟩, ⟨2, 0, 2, 0⟩⟩
      rfl rfl⟩


end Blawktrust
